import Mathlib

/-!
Verification of `scripts/sort_by_qed.py`: a utility that reads a CSV,
sorts its rows in descending order of a numeric (QED) column, and writes
the result back out with the same header.

The embedding below translates the script's functions into Lean:

* Python floats used as sort keys are modelled by `PyFloat`: an exact
  decimal value `m * 10 ^ e` (integer mantissa and exponent), the two
  infinities, or NaN.  Values are kept exact rather than rounded to
  binary doubles; none of the properties proved here depend on rounding.
* `pyFloatOfString` models the accepting grammar of Python's `float()`:
  optional surrounding whitespace, an optional sign, then an `inf`,
  `infinity` or `nan` spelling (case-insensitive) or a decimal literal
  `digits [. digits] [e[sign]digits]` / `. digits [e[sign]digits]`,
  with PEP-515 underscores allowed between digits.
* A CSV record (one `csv.DictReader` row) is an association list from
  `Option String` key to cell value: ordinary fields keyed by column
  name, the extra fields of a long row filed as a list under the `None`
  restkey, and missing fields of a short row filled with the `None`
  restval.
* `sorted(rows, key=..., reverse=True)` is modelled as CPython runs it:
  reverse, sort ascending, reverse back; the ascending sort is run
  detection followed by binary insertion, which is exactly CPython's
  algorithm on lists of fewer than 64 elements.  On longer lists
  CPython's merge phase agrees with this model whenever no key is NaN
  (both are then the stable ascending sort); with NaN keys the
  comparison is not a weak order and either algorithm's output is only
  pairwise non-descending, which is all the theorems below use.
* The write path models `csv.DictWriter` with its default
  `extrasaction='raise'`: a record carrying keys outside the header
  (a long row's restkey) raises `ValueError` mid-write, leaving the
  records written so far in the output file.
-/

namespace SortByQed

/-- The value space of Python floats as used by the script: exact
decimal numbers `m * 10 ^ e`, the two infinities (`float("-inf")` is
also the sentinel for unparseable cells), and NaN. -/
inductive PyFloat where
  | negInf : PyFloat
  | val : ℤ → ℤ → PyFloat
  | posInf : PyFloat
  | nan : PyFloat
deriving DecidableEq, Repr

/-- Ten to a natural power, over ℤ (kept as a plain recursion so that
concrete instances evaluate by `decide`). -/
def npow10 : ℕ → ℤ
  | 0 => 1
  | n + 1 => 10 * npow10 n

/-- The rational number denoted by a finite `PyFloat.val m e`. -/
def decValue (m e : ℤ) : ℚ := (m : ℚ) * (10 : ℚ) ^ e

namespace PyFloat

/-- IEEE less-than on `PyFloat`, the one comparison CPython's sort ever
evaluates (`Py_LT`).  Every comparison against NaN is false.  Two finite
values are compared exactly, by rescaling both mantissas to the smaller
exponent. -/
def lt : PyFloat → PyFloat → Bool
  | nan, _ => false
  | _, nan => false
  | negInf, negInf => false
  | negInf, _ => true
  | val _ _, negInf => false
  | val m₁ e₁, val m₂ e₂ =>
    decide (m₁ * npow10 (e₁ - min e₁ e₂).toNat < m₂ * npow10 (e₂ - min e₁ e₂).toNat)
  | val _ _, posInf => true
  | posInf, _ => false

/-- IEEE less-than-or-equal on `PyFloat` (false whenever NaN is
involved), used to state descending order of the non-NaN sort keys. -/
def ble : PyFloat → PyFloat → Bool
  | nan, _ => false
  | _, nan => false
  | negInf, _ => true
  | val _ _, negInf => false
  | val m₁ e₁, val m₂ e₂ =>
    decide (m₁ * npow10 (e₁ - min e₁ e₂).toNat ≤ m₂ * npow10 (e₂ - min e₁ e₂).toNat)
  | val _ _, posInf => true
  | posInf, posInf => true
  | posInf, _ => false

end PyFloat

theorem npow10_eq (n : ℕ) : npow10 n = (10 : ℤ) ^ n := by
  induction n with
  | zero => rfl
  | succ k ih => rw [npow10, ih, pow_succ]; ring

/-- Rescaling a mantissa to a smaller exponent does not change the
denoted rational value. -/
theorem decValue_rescale (m e e' : ℤ) (h : e' ≤ e) :
    decValue (m * npow10 (e - e').toNat) e' = decValue m e := by
  unfold decValue
  rw [npow10_eq]
  push_cast
  rw [mul_assoc, ← zpow_natCast (10 : ℚ) (e - e').toNat,
    Int.toNat_of_nonneg (show (0 : ℤ) ≤ e - e' from by omega),
    ← zpow_add₀ (by norm_num : (10 : ℚ) ≠ 0), sub_add_cancel]

/-- The comparison of two finite `PyFloat`s agrees with the order of the
rational values they denote. -/
theorem ble_val_iff (m₁ e₁ m₂ e₂ : ℤ) :
    PyFloat.ble (.val m₁ e₁) (.val m₂ e₂) = true ↔ decValue m₁ e₁ ≤ decValue m₂ e₂ := by
  have h₁ : min e₁ e₂ ≤ e₁ := min_le_left _ _
  have h₂ : min e₁ e₂ ≤ e₂ := min_le_right _ _
  rw [PyFloat.ble, decide_eq_true_eq,
    ← decValue_rescale m₁ e₁ (min e₁ e₂) h₁, ← decValue_rescale m₂ e₂ (min e₁ e₂) h₂]
  unfold decValue
  constructor
  · intro h
    exact mul_le_mul_of_nonneg_right (by exact_mod_cast h) (le_of_lt (zpow_pos (by norm_num) _))
  · intro h
    have := mul_le_mul_of_nonneg_right h
      (le_of_lt (zpow_pos (by norm_num : (0:ℚ) < (10:ℚ)⁻¹) (min e₁ e₂)))
    rw [mul_assoc, mul_assoc, inv_zpow, ← zpow_neg, ← zpow_add₀ (by norm_num : (10:ℚ) ≠ 0),
      add_neg_cancel, zpow_zero, mul_one, mul_one] at this
    exact_mod_cast this

/-- The strict comparison of two finite `PyFloat`s agrees with the
strict order of the rational values they denote. -/
theorem lt_val_iff (m₁ e₁ m₂ e₂ : ℤ) :
    PyFloat.lt (.val m₁ e₁) (.val m₂ e₂) = true ↔ decValue m₁ e₁ < decValue m₂ e₂ := by
  have h₁ : min e₁ e₂ ≤ e₁ := min_le_left _ _
  have h₂ : min e₁ e₂ ≤ e₂ := min_le_right _ _
  rw [PyFloat.lt, decide_eq_true_eq,
    ← decValue_rescale m₁ e₁ (min e₁ e₂) h₁, ← decValue_rescale m₂ e₂ (min e₁ e₂) h₂]
  unfold decValue
  rw [mul_lt_mul_right (zpow_pos (by norm_num) _)]
  exact_mod_cast Iff.rfl

theorem ble_total_of_ne_nan {a b : PyFloat} (ha : a ≠ .nan) (hb : b ≠ .nan) :
    PyFloat.ble a b = true ∨ PyFloat.ble b a = true := by
  cases a <;> cases b
  case val.val m₁ e₁ m₂ e₂ =>
    rw [ble_val_iff, ble_val_iff]
    exact le_total _ _
  all_goals simp_all [PyFloat.ble]

theorem ble_trans {a b c : PyFloat} (hab : PyFloat.ble a b = true)
    (hbc : PyFloat.ble b c = true) : PyFloat.ble a c = true := by
  cases a <;> cases b <;> cases c
  case val.val.val =>
    rw [ble_val_iff] at hab hbc ⊢
    exact le_trans hab hbc
  all_goals simp_all [PyFloat.ble]

theorem ble_refl_of_ne_nan {a : PyFloat} (ha : a ≠ .nan) : PyFloat.ble a a = true := by
  cases a
  case val => rw [ble_val_iff]
  all_goals simp_all [PyFloat.ble]

/-- `ble x negInf` holds exactly when `x` is `negInf` itself. -/
theorem ble_negInf_iff (a : PyFloat) : PyFloat.ble a .negInf = true ↔ a = .negInf := by
  cases a <;> simp [PyFloat.ble]

/-- Nothing, not even NaN, is strictly below `-inf`. -/
theorem lt_negInf (a : PyFloat) : PyFloat.lt a .negInf = false := by
  cases a <;> rfl

/-- The float comparison is asymmetric: `x < y` and `y < x` are never
both true, NaN or not. -/
theorem lt_asymm {a b : PyFloat} (h : PyFloat.lt a b = true) : PyFloat.lt b a = false := by
  cases a <;> cases b
  case val.val m₁ e₁ m₂ e₂ =>
    rw [Bool.eq_false_iff]
    intro hc
    rw [lt_val_iff] at h hc
    exact absurd hc (not_lt.mpr (le_of_lt h))
  all_goals simp_all [PyFloat.lt]

/-- Strict float comparison is transitive (vacuously so when NaN is
involved, since NaN comparisons are never true). -/
theorem lt_trans' {a b c : PyFloat} (hab : PyFloat.lt a b = true)
    (hbc : PyFloat.lt b c = true) : PyFloat.lt a c = true := by
  cases a <;> cases b <;> cases c
  case val.val.val =>
    rw [lt_val_iff] at hab hbc ⊢
    exact lt_trans hab hbc
  all_goals simp_all [PyFloat.lt]

/-- On non-NaN values, `x < y` being false is exactly `y ≤ x`. -/
theorem lt_eq_false_iff_ble {a b : PyFloat} (ha : a ≠ .nan) (hb : b ≠ .nan) :
    PyFloat.lt a b = false ↔ PyFloat.ble b a = true := by
  cases a <;> cases b
  case val.val m₁ e₁ m₂ e₂ =>
    rw [Bool.eq_false_iff, ble_val_iff]
    constructor
    · intro hc
      by_contra hq
      exact hc ((lt_val_iff m₁ e₁ m₂ e₂).mpr (not_le.mp hq))
    · intro hq hc
      exact absurd ((lt_val_iff m₁ e₁ m₂ e₂).mp hc) (not_lt.mpr hq)
  all_goals simp_all [PyFloat.lt, PyFloat.ble]

/-- Numeric value of a digit string (most significant first). -/
def digitsVal (cs : List Char) : ℕ :=
  cs.foldl (fun acc c => 10 * acc + (c.toNat - ('0').toNat)) 0

/-- Longest valid PEP-515 digit group at the front of the input:
digits optionally separated by single underscores, each underscore
flanked by digits on both sides.  Returns the digits (underscores
removed) and the unconsumed rest. -/
def takeDigitsU : List Char → List Char × List Char
  | [] => ([], [])
  | c :: '_' :: c2 :: cs2 =>
    if c.isDigit then
      if c2.isDigit then
        let p := takeDigitsU (c2 :: cs2)
        (c :: p.1, p.2)
      else ([c], '_' :: c2 :: cs2)
    else ([], c :: '_' :: c2 :: cs2)
  | c :: cs =>
    if c.isDigit then
      match cs with
      | '_' :: cs2 => ([c], '_' :: cs2)
      | _ =>
        let p := takeDigitsU cs
        (c :: p.1, p.2)
    else ([], c :: cs)

/-- The exponent of a float literal: an optional sign followed by a
nonempty digit group, which must consume the whole remaining input. -/
def parseExpPart (cs : List Char) : Option ℤ :=
  let signed : Bool × List Char :=
    match cs with
    | '+' :: cs2 => (false, cs2)
    | '-' :: cs2 => (true, cs2)
    | _ => (false, cs)
  let p := takeDigitsU signed.2
  if !p.1.isEmpty && p.2.isEmpty then
    some (if signed.1 then -(digitsVal p.1 : ℤ) else (digitsVal p.1 : ℤ))
  else none

/-- An unsigned decimal float literal `digits [. digits] [exp]` or
`. digits [exp]` (digit groups may contain PEP-515 underscores),
returned as mantissa and power-of-ten exponent. -/
def parseDecimal (cs : List Char) : Option (ℤ × ℤ) :=
  let ipp := takeDigitsU cs
  let ip := ipp.1
  match ipp.2 with
  | [] => if ip.isEmpty then none else some ((digitsVal ip : ℤ), 0)
  | '.' :: rest2 =>
    let fpp := takeDigitsU rest2
    let fp := fpp.1
    if ip.isEmpty && fp.isEmpty then none
    else
      let m : ℤ := (digitsVal (ip ++ fp) : ℤ)
      match fpp.2 with
      | [] => some (m, -(fp.length : ℤ))
      | 'e' :: es => (parseExpPart es).map (fun x => (m, x - fp.length))
      | 'E' :: es => (parseExpPart es).map (fun x => (m, x - fp.length))
      | _ => none
  | 'e' :: es =>
    if ip.isEmpty then none
    else (parseExpPart es).map (fun x => ((digitsVal ip : ℤ), x))
  | 'E' :: es =>
    if ip.isEmpty then none
    else (parseExpPart es).map (fun x => ((digitsVal ip : ℤ), x))
  | _ => none

/-- The accepting grammar of Python's `float(str)`: surrounding
whitespace is stripped, then an optional sign, then an `inf`, `infinity`
or `nan` spelling (case-insensitive; a sign on NaN is discarded) or a
decimal literal. -/
def pyFloatOfString (s : String) : Option PyFloat :=
  let cs := (s.data.dropWhile Char.isWhitespace).reverse.dropWhile Char.isWhitespace |>.reverse
  let signed : Bool × List Char :=
    match cs with
    | '+' :: cs2 => (false, cs2)
    | '-' :: cs2 => (true, cs2)
    | _ => (false, cs)
  let neg := signed.1
  let body := signed.2
  let low := body.map Char.toLower
  if low = ['i', 'n', 'f'] || low = ['i', 'n', 'f', 'i', 'n', 'i', 't', 'y'] then
    some (if neg then PyFloat.negInf else PyFloat.posInf)
  else if low = ['n', 'a', 'n'] then
    some PyFloat.nan
  else
    (parseDecimal body).map (fun p => PyFloat.val (if neg then -p.1 else p.1) p.2)

/-- A cell of a `csv.DictReader` record: an ordinary string, the `None`
the reader fills in for fields missing from a short row (`restval`),
or the list of extra strings it collects from a long row (`restkey`). -/
inductive CellVal where
  | text : String → CellVal
  | null : CellVal
  | extras : List String → CellVal
deriving DecidableEq, Repr

/-- One CSV record as produced by `csv.DictReader`: an association list
from column key to cell value.  Keys are `Option String` because the
reader files a long row's extra fields under the key `None`
(`restkey=None`). -/
abbrev Row := List (Option String × CellVal)

/-- `row.get(qed_key, "")`: the stored cell if the string key is
present, else the default `""`. -/
def rowGet (row : Row) (key : String) : CellVal :=
  match row.find? (fun p => p.1 == some key) with
  | some p => p.2
  | none => .text ""

/-- `parse_qed_value(value)`: `float(value)`, with `TypeError` (a `None`
or list cell) and `ValueError` (unparseable text) both recovered as
`-inf`. -/
def parse_qed_value (value : CellVal) : PyFloat :=
  match value with
  | .null => PyFloat.negInf
  | .extras _ => PyFloat.negInf
  | .text s =>
    match pyFloatOfString s with
    | some f => f
    | none => PyFloat.negInf

/-- The sort key of a row: `parse_qed_value(row.get(qed_key, ""))`. -/
def rowKey (qedKey : String) (row : Row) : PyFloat :=
  parse_qed_value (rowGet row qedKey)

/-- The one comparison `sorted` makes between rows: strict `<` of their
keys (CPython compares only with `Py_LT`). -/
def rowLt (qedKey : String) (a b : Row) : Bool :=
  PyFloat.lt (rowKey qedKey a) (rowKey qedKey b)

/-! ### CPython's list sort

`sorted(rows, key=..., reverse=True)` reverses the list, sorts it
ascending and reverses it back (that is how `reverse=True` keeps the
sort stable).  The ascending sort is modelled as CPython's `list.sort`
runs it on lists of fewer than 64 elements, where `minrun` equals the
length: detect the initial run (weakly ascending under `<`, or strictly
descending, the latter reversed in place), then extend it over the whole
list by binary insertion (`binarysort`).  On longer lists CPython splits
into runs and merges; merging agrees with this model whenever the
comparison is a weak order, i.e. whenever no sort key is NaN. -/

/-- CPython's `binarysort` search loop: in `a[l..r)`, the leftmost
insertion point for `pivot`, probing midpoints with `pivot < a[m]`.
The fuel only bounds the iteration count; `r - l` always suffices. -/
def binSearch (lt : α → α → Bool) (a : List α) (pivot : α) : ℕ → ℕ → ℕ → ℕ
  | 0, l, _ => l
  | fuel + 1, l, r =>
    if l < r then
      let m := l + (r - l) / 2
      if lt pivot (a.getD m pivot) then binSearch lt a pivot fuel l m
      else binSearch lt a pivot fuel (m + 1) r
    else l

/-- One step of `binarysort`: insert `pivot` into `acc` at the position
the binary search finds. -/
def binInsert (lt : α → α → Bool) (acc : List α) (pivot : α) : List α :=
  let pos := binSearch lt acc pivot acc.length 0 acc.length
  acc.take pos ++ pivot :: acc.drop pos

/-- CPython's `binarysort`: extend the sorted prefix `acc` over the
remaining elements, inserting each in turn. -/
def binarysort (lt : α → α → Bool) : List α → List α → List α
  | acc, [] => acc
  | acc, x :: rest => binarysort lt (binInsert lt acc x) rest

/-- The tail of a weakly ascending run: extend while `cur < prev` is
false.  Returns the run's tail and the unconsumed rest. -/
def countRunAsc (lt : α → α → Bool) (prev : α) : List α → List α × List α
  | [] => ([], [])
  | x :: xs =>
    if lt x prev then ([], x :: xs)
    else
      let p := countRunAsc lt x xs
      (x :: p.1, p.2)

/-- The tail of a strictly descending run: extend while `cur < prev`. -/
def countRunDesc (lt : α → α → Bool) (prev : α) : List α → List α × List α
  | [] => ([], [])
  | x :: xs =>
    if lt x prev then
      let p := countRunDesc lt x xs
      (x :: p.1, p.2)
    else ([], x :: xs)

/-- CPython's ascending `list.sort` on lists of fewer than 64 elements:
initial run detection (a strictly descending run is reversed), then
binary insertion of everything after the run. -/
def pySortAsc (lt : α → α → Bool) : List α → List α
  | [] => []
  | [x] => [x]
  | x₁ :: x₂ :: xs =>
    if lt x₂ x₁ then
      let p := countRunDesc lt x₂ xs
      binarysort lt (x₁ :: x₂ :: p.1).reverse p.2
    else
      let p := countRunAsc lt x₂ xs
      binarysort lt (x₁ :: x₂ :: p.1) p.2

/-- `sorted(l, reverse=True)`: reverse, sort ascending, reverse back. -/
def pySorted (lt : α → α → Bool) (l : List α) : List α :=
  (pySortAsc lt l.reverse).reverse

/-- `sort_rows(rows, qed_key)`: `sorted` of the rows, descending by
their parsed QED key. -/
def sort_rows (rows : List Row) (qedKey : String) : List Row :=
  pySorted (rowLt qedKey) rows

/-- A list none of whose adjacent pairs descends under `<`: exactly the
lists CPython's run detection recognises as a single ascending run. -/
def noDescent (lt : α → α → Bool) (l : List α) : Prop :=
  List.Chain' (fun a b => lt b a = false) l

section PySortLemmas

variable {α : Type} (lt : α → α → Bool)

theorem binSearch_ge (a : List α) (pivot : α) :
    ∀ fuel l r, l ≤ binSearch lt a pivot fuel l r
  | 0, l, _ => Nat.le_refl l
  | fuel + 1, l, r => by
    simp only [binSearch]
    split_ifs with h1 h2
    · exact binSearch_ge a pivot fuel l _
    · exact le_trans (by omega) (binSearch_ge a pivot fuel (l + (r - l) / 2 + 1) r)
    · exact Nat.le_refl l

theorem binSearch_le (a : List α) (pivot : α) :
    ∀ fuel l r, l ≤ r → binSearch lt a pivot fuel l r ≤ r
  | 0, _, _, h => h
  | fuel + 1, l, r, h => by
    simp only [binSearch]
    split_ifs with h1 h2
    · exact le_trans (binSearch_le a pivot fuel l _ (by omega)) (by omega)
    · exact binSearch_le a pivot fuel _ r (by omega)
    · exact h

/-- Whenever the search lands strictly above its lower bound, the probe
just below the landing point answered `pivot < a[pos-1]` false. -/
theorem binSearch_lower (a : List α) (pivot : α) :
    ∀ fuel l r, r - l ≤ fuel →
      l < binSearch lt a pivot fuel l r →
      lt pivot (a.getD (binSearch lt a pivot fuel l r - 1) pivot) = false
  | 0, l, _, _, hpos => by simp [binSearch] at hpos
  | fuel + 1, l, r, hfuel, hpos => by
    simp only [binSearch] at hpos ⊢
    split_ifs at hpos ⊢ with h1 h2
    · exact binSearch_lower a pivot fuel l _ (by omega) hpos
    · by_cases hadv : l + (r - l) / 2 + 1 < binSearch lt a pivot fuel (l + (r - l) / 2 + 1) r
      · exact binSearch_lower a pivot fuel _ r (by omega) hadv
      · have hge := binSearch_ge lt a pivot fuel (l + (r - l) / 2 + 1) r
        have heq : binSearch lt a pivot fuel (l + (r - l) / 2 + 1) r
            = l + (r - l) / 2 + 1 := by omega
        rw [heq]
        simpa using h2
    · omega

/-- Whenever the search lands strictly below its upper bound, the probe
at the landing point answered `pivot < a[pos]` true. -/
theorem binSearch_upper (a : List α) (pivot : α) :
    ∀ fuel l r, r - l ≤ fuel →
      binSearch lt a pivot fuel l r < r →
      lt pivot (a.getD (binSearch lt a pivot fuel l r) pivot) = true
  | 0, l, r, hfuel, hpos => by
    simp only [binSearch] at hpos
    omega
  | fuel + 1, l, r, hfuel, hpos => by
    simp only [binSearch] at hpos ⊢
    split_ifs at hpos ⊢ with h1 h2
    · by_cases hlt : binSearch lt a pivot fuel l (l + (r - l) / 2) < l + (r - l) / 2
      · exact binSearch_upper a pivot fuel l _ (by omega) hlt
      · have hle := binSearch_le lt a pivot fuel l (l + (r - l) / 2) (by omega)
        have heq : binSearch lt a pivot fuel l (l + (r - l) / 2) = l + (r - l) / 2 := by
          omega
        rw [heq]
        exact h2
    · exact binSearch_upper a pivot fuel _ r (by omega) hpos
    · omega

theorem binInsert_perm (acc : List α) (pivot : α) :
    List.Perm (binInsert lt acc pivot) (pivot :: acc) := by
  unfold binInsert
  refine List.Perm.trans List.perm_middle ?_
  rw [List.take_append_drop]

theorem binarysort_perm : ∀ (acc rest : List α),
    List.Perm (binarysort lt acc rest) (acc ++ rest)
  | _, [] => by simp [binarysort]
  | acc, x :: rest => by
    rw [binarysort]
    refine List.Perm.trans (binarysort_perm _ rest) ?_
    refine List.Perm.trans (List.Perm.append_right rest (binInsert_perm lt acc x)) ?_
    simp only [List.cons_append]
    exact List.perm_middle.symm

theorem countRunAsc_append (prev : α) : ∀ l : List α,
    (countRunAsc lt prev l).1 ++ (countRunAsc lt prev l).2 = l
  | [] => rfl
  | x :: xs => by
    rw [countRunAsc]
    split_ifs with h
    · rfl
    · simpa using countRunAsc_append x xs

theorem countRunDesc_append (prev : α) : ∀ l : List α,
    (countRunDesc lt prev l).1 ++ (countRunDesc lt prev l).2 = l
  | [] => rfl
  | x :: xs => by
    rw [countRunDesc]
    split_ifs with h
    · simpa using countRunDesc_append x xs
    · rfl

theorem countRunAsc_chain (prev : α) : ∀ l : List α,
    List.Chain' (fun a b => lt b a = false) (prev :: (countRunAsc lt prev l).1)
  | [] => List.chain'_singleton prev
  | x :: xs => by
    rw [countRunAsc]
    split_ifs with h
    · exact List.chain'_singleton prev
    · exact List.chain'_cons.mpr ⟨by simpa using h, countRunAsc_chain x xs⟩

theorem countRunDesc_chain (prev : α) : ∀ l : List α,
    List.Chain' (fun a b => lt b a = true) (prev :: (countRunDesc lt prev l).1)
  | [] => List.chain'_singleton prev
  | x :: xs => by
    rw [countRunDesc]
    split_ifs with h
    · exact List.chain'_cons.mpr ⟨h, countRunDesc_chain x xs⟩
    · exact List.chain'_singleton prev

/-- Reversing a strictly descending run yields a weakly ascending one,
by asymmetry of the comparison. -/
theorem noDescent_reverse_of_strict (hasym : ∀ {a b : α}, lt a b = true → lt b a = false)
    {l : List α} (h : List.Chain' (fun a b => lt b a = true) l) :
    noDescent lt l.reverse := by
  unfold noDescent
  rw [List.chain'_reverse]
  exact List.Chain'.imp (fun a b hab => hasym hab) h

theorem take_getLast_eq {l : List α} {pos : ℕ} (h0 : 0 < pos) (hlen : pos ≤ l.length)
    (d : α) : (l.take pos).getLast? = some (l.getD (pos - 1) d) := by
  rw [List.getLast?_eq_getElem?, List.getD_eq_getElem?_getD, List.length_take]
  have hmin : min pos l.length = pos := by omega
  rw [hmin, List.getElem?_take, if_pos (by omega), List.getElem?_eq_getElem (by omega)]
  rfl

theorem drop_head_eq {l : List α} {pos : ℕ} (hlen : pos < l.length) (d : α) :
    (l.drop pos).head? = some (l.getD pos d) := by
  rw [List.head?_drop, List.getD_eq_getElem?_getD, List.getElem?_eq_getElem hlen]
  rfl

/-- Binary insertion keeps the no-descent run invariant: the element to
the left of the landing point was probed not-above the pivot, and the
one to the right was probed strictly above it (so, by asymmetry, not
below). -/
theorem noDescent_binInsert (hasym : ∀ {a b : α}, lt a b = true → lt b a = false)
    {acc : List α} (pivot : α) (h : noDescent lt acc) :
    noDescent lt (binInsert lt acc pivot) := by
  unfold binInsert noDescent
  have hle : binSearch lt acc pivot acc.length 0 acc.length ≤ acc.length :=
    binSearch_le lt acc pivot acc.length 0 acc.length (Nat.zero_le _)
  refine List.chain'_append.mpr ⟨h.take _, List.chain'_cons'.mpr ⟨?_, h.drop _⟩, ?_⟩
  · intro y hy
    by_cases hpos : binSearch lt acc pivot acc.length 0 acc.length < acc.length
    · rw [drop_head_eq hpos pivot] at hy
      have hup := binSearch_upper lt acc pivot acc.length 0 acc.length (by omega) hpos
      rw [Option.mem_some_iff] at hy
      subst hy
      exact hasym hup
    · have : acc.drop (binSearch lt acc pivot acc.length 0 acc.length) = [] := by
        rw [List.drop_eq_nil_iff]
        omega
      rw [this] at hy
      simp at hy
  · intro x hx y hy
    simp only [List.head?_cons, Option.mem_some_iff] at hy
    by_cases h0 : 0 < binSearch lt acc pivot acc.length 0 acc.length
    · rw [take_getLast_eq h0 hle pivot, Option.mem_some_iff] at hx
      have hlow := binSearch_lower lt acc pivot acc.length 0 acc.length (by omega) h0
      subst hx
      subst hy
      exact hlow
    · rw [show binSearch lt acc pivot acc.length 0 acc.length = 0 by omega] at hx
      simp at hx

theorem noDescent_binarysort (hasym : ∀ {a b : α}, lt a b = true → lt b a = false) :
    ∀ (acc rest : List α), noDescent lt acc → noDescent lt (binarysort lt acc rest)
  | _, [], h => h
  | acc, x :: rest, h =>
    noDescent_binarysort hasym (binInsert lt acc x) rest
      (noDescent_binInsert lt hasym x h)

theorem noDescent_pySortAsc (hasym : ∀ {a b : α}, lt a b = true → lt b a = false) :
    ∀ l : List α, noDescent lt (pySortAsc lt l)
  | [] => List.chain'_nil
  | [x] => List.chain'_singleton x
  | x₁ :: x₂ :: xs => by
    rw [pySortAsc]
    split_ifs with h
    · refine noDescent_binarysort lt hasym _ _ (noDescent_reverse_of_strict lt hasym ?_)
      exact List.chain'_cons.mpr ⟨h, countRunDesc_chain lt x₂ xs⟩
    · refine noDescent_binarysort lt hasym _ _ ?_
      exact List.chain'_cons.mpr ⟨by simpa using h, countRunAsc_chain lt x₂ xs⟩

theorem countRunAsc_all (prev : α) : ∀ l : List α,
    List.Chain' (fun a b => lt b a = false) (prev :: l) →
    countRunAsc lt prev l = (l, [])
  | [], _ => rfl
  | x :: xs, h => by
    rw [List.chain'_cons] at h
    rw [countRunAsc, if_neg (by simp [h.1])]
    simp [countRunAsc_all x xs h.2]

/-- A list the run detector recognises in full is returned unchanged:
the whole input is one run and nothing is left to insert. -/
theorem pySortAsc_fix : ∀ {l : List α}, noDescent lt l → pySortAsc lt l = l
  | [], _ => rfl
  | [_], _ => rfl
  | x₁ :: x₂ :: xs, h => by
    rw [noDescent, List.chain'_cons] at h
    rw [pySortAsc, if_neg (by simp [h.1]), countRunAsc_all lt x₂ xs h.2]
    rfl

theorem pySortAsc_perm : ∀ l : List α, List.Perm (pySortAsc lt l) l
  | [] => List.Perm.refl _
  | [x] => List.Perm.refl _
  | x₁ :: x₂ :: xs => by
    rw [pySortAsc]
    split_ifs with h
    · refine List.Perm.trans (binarysort_perm lt _ _) ?_
      refine List.Perm.trans
        (List.Perm.append_right _ (List.reverse_perm (x₁ :: x₂ :: (countRunDesc lt x₂ xs).1))) ?_
      simp only [List.cons_append]
      exact List.Perm.cons x₁ (List.Perm.cons x₂ (by rw [countRunDesc_append]))
    · refine List.Perm.trans (binarysort_perm lt _ _) ?_
      simp only [List.cons_append]
      exact List.Perm.cons x₁ (List.Perm.cons x₂ (by rw [countRunAsc_append]))

theorem pySorted_perm (l : List α) : List.Perm (pySorted lt l) l := by
  unfold pySorted
  refine List.Perm.trans (List.reverse_perm _) ?_
  exact List.Perm.trans (pySortAsc_perm lt l.reverse) (List.reverse_perm l)

/-- Re-sorting a sorted list changes nothing: the output of the sort
always satisfies the run invariant, so the second pass recognises it as
a single run. -/
theorem pySorted_fixpoint (hasym : ∀ {a b : α}, lt a b = true → lt b a = false)
    (l : List α) : pySorted lt (pySorted lt l) = pySorted lt l := by
  unfold pySorted
  rw [List.reverse_reverse, pySortAsc_fix lt (noDescent_pySortAsc lt hasym l.reverse)]

end PySortLemmas

section ChainPairwise

variable {α : Type}

theorem rel_head_of_chain {r : α → α → Prop} :
    ∀ {x : α} {l : List α}, List.Chain' r (x :: l) →
      (∀ a ∈ x :: l, ∀ b ∈ x :: l, ∀ c ∈ x :: l, r a b → r b c → r a c) →
      ∀ y ∈ l, r x y
  | _, [], _, _, y, hy => absurd hy (List.not_mem_nil y)
  | x, z :: l, h, ht, y, hy => by
    have h1 : r x z := (List.chain'_cons.mp h).1
    rcases List.mem_cons.mp hy with rfl | hyl
    · exact h1
    · have hz := rel_head_of_chain (List.chain'_cons.mp h).2
        (fun a ha b hb c hc => ht a (List.mem_cons_of_mem x ha) b (List.mem_cons_of_mem x hb)
          c (List.mem_cons_of_mem x hc)) y hyl
      exact ht x (List.mem_cons_self x _) z (List.mem_cons_of_mem x (List.mem_cons_self z l))
        y (List.mem_cons_of_mem x (List.mem_cons_of_mem z hyl)) h1 hz

/-- Adjacent-pair ordering extends to all pairs when the relation is
transitive on the list's members. -/
theorem pairwise_of_chain {r : α → α → Prop} :
    ∀ {l : List α}, List.Chain' r l →
      (∀ a ∈ l, ∀ b ∈ l, ∀ c ∈ l, r a b → r b c → r a c) →
      List.Pairwise r l
  | [], _, _ => List.Pairwise.nil
  | x :: l, h, ht =>
    List.Pairwise.cons (rel_head_of_chain h ht)
      (pairwise_of_chain h.tail
        (fun a ha b hb c hc => ht a (List.mem_cons_of_mem x ha) b (List.mem_cons_of_mem x hb)
          c (List.mem_cons_of_mem x hc)))

theorem getD_of_lt {l : List α} {n : ℕ} (h : n < l.length) (d : α) : l.getD n d = l[n] := by
  rw [List.getD_eq_getElem?_getD, List.getElem?_eq_getElem h]
  rfl

end ChainPairwise

/-- Ascending key order between two rows (used to state sortedness of
the NaN-free case). -/
def rowLe (qedKey : String) (a b : Row) : Prop :=
  PyFloat.ble (rowKey qedKey a) (rowKey qedKey b) = true

/-- On a NaN-free list, the run invariant upgrades to full pairwise
ascending order of the keys. -/
theorem pairwise_of_noDescent (qedKey : String) {l : List Row}
    (hnd : noDescent (rowLt qedKey) l)
    (hn : ∀ r ∈ l, rowKey qedKey r ≠ PyFloat.nan) :
    List.Pairwise (rowLe qedKey) l := by
  have hpw := pairwise_of_chain hnd ?_
  · refine hpw.imp_of_mem ?_
    intro a b ha hb hab
    exact (lt_eq_false_iff_ble (hn b hb) (hn a ha)).mp hab
  · intro a ha b hb c hc hab hbc
    rw [show rowLt qedKey b a = PyFloat.lt (rowKey qedKey b) (rowKey qedKey a) from rfl,
      lt_eq_false_iff_ble (hn b hb) (hn a ha)] at hab
    rw [show rowLt qedKey c b = PyFloat.lt (rowKey qedKey c) (rowKey qedKey b) from rfl,
      lt_eq_false_iff_ble (hn c hc) (hn b hb)] at hbc
    rw [show rowLt qedKey c a = PyFloat.lt (rowKey qedKey c) (rowKey qedKey a) from rfl,
      lt_eq_false_iff_ble (hn c hc) (hn a ha)]
    exact ble_trans hab hbc

/-- Binary insertion appends a row after every row satisfying a
sentinel-key predicate: in a sorted prefix no row at or beyond the
landing point can carry the sentinel key `-inf`, because the probe at
the landing point answered strictly-above-the-pivot and nothing is
strictly above `-inf`. -/
theorem filter_binInsert (qedKey : String) (p : Row → Bool)
    (hp : ∀ r, p r = true → rowKey qedKey r = PyFloat.negInf)
    {acc : List Row} (pivot : Row)
    (hs : List.Pairwise (rowLe qedKey) acc) :
    (binInsert (rowLt qedKey) acc pivot).filter p
      = acc.filter p ++ [pivot].filter p := by
  unfold binInsert
  have hle : binSearch (rowLt qedKey) acc pivot acc.length 0 acc.length ≤ acc.length :=
    binSearch_le _ acc pivot acc.length 0 acc.length (Nat.zero_le _)
  have hdrop : ∀ y ∈ acc.drop (binSearch (rowLt qedKey) acc pivot acc.length 0 acc.length),
      p y = false := by
    intro y hy
    by_contra hpy
    rw [Bool.not_eq_false] at hpy
    have hkey := hp y hpy
    have hpos : binSearch (rowLt qedKey) acc pivot acc.length 0 acc.length < acc.length := by
      by_contra hge
      rw [List.drop_eq_nil_iff.mpr (by omega)] at hy
      exact absurd hy (List.not_mem_nil y)
    have hup := binSearch_upper (rowLt qedKey) acc pivot acc.length 0 acc.length
      (by omega) hpos
    rw [getD_of_lt hpos] at hup
    have hblock : rowKey qedKey
        acc[binSearch (rowLt qedKey) acc pivot acc.length 0 acc.length] = PyFloat.negInf := by
      rw [List.drop_eq_getElem_cons hpos] at hy
      rcases List.mem_cons.mp hy with rfl | htail
      · exact hkey
      · have hpw : List.Pairwise (rowLe qedKey)
            (acc[binSearch (rowLt qedKey) acc pivot acc.length 0 acc.length]
              :: acc.drop (binSearch (rowLt qedKey) acc pivot acc.length 0 acc.length + 1)) := by
          rw [← List.drop_eq_getElem_cons hpos]
          exact hs.sublist (List.drop_sublist _ _)
        have hble := (List.pairwise_cons.mp hpw).1 y htail
        rw [rowLe, hkey] at hble
        exact (ble_negInf_iff _).mp hble
    rw [rowLt, hblock, lt_negInf] at hup
    exact Bool.false_ne_true hup
  have hfd : (acc.drop (binSearch (rowLt qedKey) acc pivot acc.length 0 acc.length)).filter p
      = [] := List.filter_eq_nil_iff.mpr (fun a ha => by simp [hdrop a ha])
  have hfacc : acc.filter p
      = (acc.take (binSearch (rowLt qedKey) acc pivot acc.length 0 acc.length)).filter p := by
    conv_lhs => rw [← List.take_append_drop
      (binSearch (rowLt qedKey) acc pivot acc.length 0 acc.length) acc]
    rw [List.filter_append, hfd, List.append_nil]
  rw [List.filter_append, List.filter_cons, hfd, hfacc]
  by_cases hpv : p pivot <;> simp [List.filter_cons, hpv]

/-- `binarysort` writes the sentinel-keyed rows of the prefix first, in
order, then those of the remaining input, in order. -/
theorem filter_binarysort (qedKey : String) (p : Row → Bool)
    (hp : ∀ r, p r = true → rowKey qedKey r = PyFloat.negInf) :
    ∀ (acc rest : List Row), noDescent (rowLt qedKey) acc →
      (∀ r ∈ acc, rowKey qedKey r ≠ PyFloat.nan) →
      (∀ r ∈ rest, rowKey qedKey r ≠ PyFloat.nan) →
      (binarysort (rowLt qedKey) acc rest).filter p = acc.filter p ++ rest.filter p
  | acc, [], _, _, _ => by simp [binarysort]
  | acc, x :: rest, hnd, hna, hnr => by
    rw [binarysort]
    have hmem : ∀ r ∈ binInsert (rowLt qedKey) acc x, rowKey qedKey r ≠ PyFloat.nan := by
      intro r hr
      rcases List.mem_cons.mp ((binInsert_perm (rowLt qedKey) acc x).mem_iff.mp hr)
        with rfl | hracc
      · exact hnr r (List.mem_cons_self r rest)
      · exact hna r hracc
    rw [filter_binarysort qedKey p hp (binInsert (rowLt qedKey) acc x) rest
      (noDescent_binInsert _ (fun hab => lt_asymm hab) x hnd) hmem
      (fun r hr => hnr r (List.mem_cons_of_mem x hr))]
    rw [filter_binInsert qedKey p hp x (pairwise_of_noDescent qedKey hnd hna)]
    rw [List.append_assoc]
    congr 1
    rw [List.filter_cons]
    by_cases hx : p x <;> simp [hx]

/-- At most one row of a strictly descending run can carry the sentinel
key, so filtering the sentinel rows out of the reversed run changes
nothing. -/
theorem filter_reverse_of_strict_run (qedKey : String) (p : Row → Bool)
    (hp : ∀ r, p r = true → rowKey qedKey r = PyFloat.negInf)
    {m : List Row} (h : List.Chain' (fun a b => rowLt qedKey b a = true) m) :
    (m.reverse).filter p = m.filter p := by
  have hpw : List.Pairwise (fun a b => rowLt qedKey b a = true) m :=
    pairwise_of_chain h (fun a _ b _ c _ hab hbc => lt_trans' hbc hab)
  have hone : List.Pairwise (fun a b => p a = true → p b = false) m := by
    refine hpw.imp ?_
    intro a b hab hpa
    by_contra hpb
    rw [Bool.not_eq_false] at hpb
    rw [rowLt, hp a hpa, hp b hpb] at hab
    exact Bool.false_ne_true hab
  have hlen : (m.filter p).length ≤ 1 := by
    clear hpw h
    induction m with
    | nil => simp
    | cons x m ih =>
      rw [List.filter_cons]
      rcases List.pairwise_cons.mp hone with ⟨hhead, htail⟩
      by_cases hx : p x
      · have : m.filter p = [] :=
          List.filter_eq_nil_iff.mpr (fun a ha => by simp [hhead a ha hx])
        simp [hx, this]
      · simpa [hx] using ih htail
  rw [List.filter_reverse]
  cases hfp : m.filter p with
  | nil => rfl
  | cons a t =>
    cases t with
    | nil => rfl
    | cons b t2 =>
      rw [hfp] at hlen
      simp at hlen

/-- The ascending sort keeps the relative order of sentinel-keyed rows
on NaN-free input. -/
theorem filter_pySortAsc (qedKey : String) (p : Row → Bool)
    (hp : ∀ r, p r = true → rowKey qedKey r = PyFloat.negInf) :
    ∀ l : List Row, (∀ r ∈ l, rowKey qedKey r ≠ PyFloat.nan) →
      (pySortAsc (rowLt qedKey) l).filter p = l.filter p
  | [], _ => rfl
  | [_], _ => rfl
  | x₁ :: x₂ :: xs, hn => by
    rw [pySortAsc]
    split_ifs with h
    · have hsplit := countRunDesc_append (rowLt qedKey) x₂ xs
      have hchain : List.Chain' (fun a b => rowLt qedKey b a = true)
          (x₁ :: x₂ :: (countRunDesc (rowLt qedKey) x₂ xs).1) :=
        List.chain'_cons.mpr ⟨h, countRunDesc_chain _ x₂ xs⟩
      have hmemrun : ∀ r ∈ (x₁ :: x₂ :: (countRunDesc (rowLt qedKey) x₂ xs).1).reverse,
          rowKey qedKey r ≠ PyFloat.nan := by
        intro r hr
        rw [List.mem_reverse] at hr
        rcases List.mem_cons.mp hr with rfl | hr
        · exact hn r (List.mem_cons_self r _)
        rcases List.mem_cons.mp hr with rfl | hr
        · exact hn r (List.mem_cons_of_mem x₁ (List.mem_cons_self r xs))
        · refine hn r (List.mem_cons_of_mem x₁ (List.mem_cons_of_mem x₂ ?_))
          rw [← hsplit]
          exact List.mem_append_left _ hr
      rw [filter_binarysort qedKey p hp _ _
        (noDescent_reverse_of_strict _ (fun hab => lt_asymm hab) hchain) hmemrun
        (fun r hr => hn r (List.mem_cons_of_mem x₁ (List.mem_cons_of_mem x₂ (by
          rw [← hsplit]; exact List.mem_append_right _ hr))))]
      rw [filter_reverse_of_strict_run qedKey p hp hchain, ← List.filter_append]
      simp only [List.cons_append]
      rw [hsplit]
    · have hsplit := countRunAsc_append (rowLt qedKey) x₂ xs
      rw [filter_binarysort qedKey p hp _ _
        (List.chain'_cons.mpr ⟨by simpa using h, countRunAsc_chain _ x₂ xs⟩)
        (by
          intro r hr
          rcases List.mem_cons.mp hr with rfl | hr
          · exact hn r (List.mem_cons_self r _)
          rcases List.mem_cons.mp hr with rfl | hr
          · exact hn r (List.mem_cons_of_mem x₁ (List.mem_cons_self r xs))
          · refine hn r (List.mem_cons_of_mem x₁ (List.mem_cons_of_mem x₂ ?_))
            rw [← hsplit]
            exact List.mem_append_left _ hr)
        (fun r hr => hn r (List.mem_cons_of_mem x₁ (List.mem_cons_of_mem x₂ (by
          rw [← hsplit]; exact List.mem_append_right _ hr))))]
      rw [← List.filter_append]
      simp only [List.cons_append]
      rw [hsplit]

/-- The keys of the output of `sort_rows` are pairwise descending on
NaN-free input. -/
theorem sorted_sort_rows (rows : List Row) (qedKey : String)
    (hn : ∀ r ∈ rows, rowKey qedKey r ≠ PyFloat.nan) :
    List.Pairwise (fun a b => PyFloat.ble (rowKey qedKey b) (rowKey qedKey a) = true)
      (sort_rows rows qedKey) := by
  unfold sort_rows pySorted
  rw [List.pairwise_reverse]
  have hnr : ∀ r ∈ pySortAsc (rowLt qedKey) rows.reverse, rowKey qedKey r ≠ PyFloat.nan := by
    intro r hr
    exact hn r (List.mem_reverse.mp
      ((pySortAsc_perm (rowLt qedKey) rows.reverse).mem_iff.mp hr))
  exact pairwise_of_noDescent qedKey
    (noDescent_pySortAsc _ (fun hab => lt_asymm hab) rows.reverse) hnr

/-- `sort_rows` keeps the relative order of sentinel-keyed rows on
NaN-free input. -/
theorem filter_sort_rows (qedKey : String) (p : Row → Bool)
    (hp : ∀ r, p r = true → rowKey qedKey r = PyFloat.negInf)
    (rows : List Row) (hn : ∀ r ∈ rows, rowKey qedKey r ≠ PyFloat.nan) :
    (sort_rows rows qedKey).filter p = rows.filter p := by
  unfold sort_rows pySorted
  rw [List.filter_reverse,
    filter_pySortAsc qedKey p hp rows.reverse (fun r hr => hn r (List.mem_reverse.mp hr)),
    ← List.filter_reverse, List.reverse_reverse]

/-- Python's `str.lower()`, modelled on the underlying character list
(`String.map` itself does not reduce in the kernel). -/
def lowerStr (s : String) : String := String.mk (s.data.map Char.toLower)

/-- `resolve_qed_field(fieldnames, desired)`: the dict comprehension
`{name.lower(): name for name in fieldnames}` is modelled by consing the
lowered-name/name pairs onto an association list front to back, so that
a later field shadows an earlier one with the same lowering, exactly as
the dict's last write wins; `mapping[key]` is then the first hit in that
list.  A missing key raises `SystemExit` with a message listing the
available columns, modelled as the error branch of `Except`. -/
def resolve_qed_field (fieldnames : List String) (desired : String) : Except String String :=
  let mapping := fieldnames.foldl (fun m name => (lowerStr name, name) :: m)
    ([] : List (String × String))
  let key := lowerStr desired
  match mapping.lookup key with
  | some name => Except.ok name
  | none => Except.error ("QED column '" ++ desired ++ "' not found. Available columns: "
      ++ String.intercalate ", " fieldnames)

/-- The association list built by `resolve_qed_field` is the reversed
list of lowered-name/name pairs. -/
theorem resolve_mapping_eq (fieldnames : List String) (acc : List (String × String)) :
    fieldnames.foldl (fun m name => (lowerStr name, name) :: m) acc
      = (fieldnames.reverse.map fun name => (lowerStr name, name)) ++ acc := by
  induction fieldnames generalizing acc with
  | nil => rfl
  | cons x l ih => simp [List.foldl_cons, ih]

/-- Looking a key up in a lowered-name/name association list is finding
the first name whose lowering is the key. -/
theorem lookup_map_toLower (l : List String) (key : String) :
    ((l.map fun name => (lowerStr name, name)).lookup key)
      = l.find? (fun name => lowerStr name == key) := by
  induction l with
  | nil => rfl
  | cons x l ih =>
    simp only [List.map_cons, List.lookup, List.find?]
    by_cases hk : lowerStr x = key
    · simp [hk]
    · have h1 : (key == lowerStr x) = false := by
        simp [Ne.symm hk]
      have h2 : (lowerStr x == key) = false := by
        simp [hk]
      rw [h1, h2, ih]

/-- Column resolution succeeds exactly on the last header name (in
header order) whose lowercasing matches the lowercased request. -/
theorem resolve_qed_field_eq (fieldnames : List String) (desired : String) :
    resolve_qed_field fieldnames desired
      = match fieldnames.reverse.find? (fun name => lowerStr name == lowerStr desired) with
        | some name => Except.ok name
        | none => Except.error ("QED column '" ++ desired ++ "' not found. Available columns: "
            ++ String.intercalate ", " fieldnames) := by
  unfold resolve_qed_field
  rw [resolve_mapping_eq, List.append_nil]
  simp only [lookup_map_toLower]

/-- Resolution fails with the full column list in the message when no
header name matches case-insensitively. -/
theorem resolve_qed_field_error (fieldnames : List String) (desired : String)
    (h : ∀ name ∈ fieldnames, lowerStr name ≠ lowerStr desired) :
    resolve_qed_field fieldnames desired
      = Except.error ("QED column '" ++ desired ++ "' not found. Available columns: "
          ++ String.intercalate ", " fieldnames) := by
  rw [resolve_qed_field_eq]
  have hnone : fieldnames.reverse.find? (fun m => lowerStr m == lowerStr desired) = none := by
    rw [List.find?_eq_none]
    intro x hx
    simpa using h x (List.mem_reverse.mp hx)
  rw [hnone]

/-- Resolution succeeds on the last case-insensitive match when one
exists. -/
theorem resolve_qed_field_ok (fieldnames : List String) (desired name : String)
    (h : fieldnames.reverse.find? (fun m => lowerStr m == lowerStr desired) = some name) :
    resolve_qed_field fieldnames desired = Except.ok name := by
  rw [resolve_qed_field_eq, h]

/-- Python-dict insertion on an association list: overwrite the binding
in place if the key exists, append otherwise (last write wins). -/
def dictUpsert (row : Row) (key : Option String) (v : CellVal) : Row :=
  if row.any (fun p => p.1 == key) then
    row.map (fun p => if p.1 == key then (p.1, v) else p)
  else row ++ [(key, v)]

/-- One record as `csv.DictReader.__next__` builds it from a raw row:
`dict(zip(fieldnames, row))`, then the extra fields of a long row are
filed under the `None` restkey, and the missing fields of a short row
are filled with the `None` restval. -/
def dictReaderRow (fieldnames : List String) (raw : List String) : Row :=
  let d := (List.zip fieldnames raw).foldl
    (fun acc q => dictUpsert acc (some q.1) (CellVal.text q.2)) []
  if fieldnames.length < raw.length then
    dictUpsert d none (CellVal.extras (raw.drop fieldnames.length))
  else if raw.length < fieldnames.length then
    (fieldnames.drop raw.length).foldl (fun acc k => dictUpsert acc (some k) CellVal.null) d
  else d

/-- `DictWriter`'s `extrasaction='raise'` check: does the record carry
any key outside the header?  (`rowdict.keys() - self.fieldnames`). -/
def hasWrongFields (fieldnames : List String) (row : Row) : Bool :=
  row.any (fun p => !((fieldnames.map some).contains p.1))

/-- The text the csv writer emits for one cell: a string as itself, a
`None` as the empty field, and a list by its Python repr (the last case
never survives the wrong-fields check for reader-built records). -/
def cellWrite : CellVal → String
  | .text s => s
  | .null => ""
  | .extras xs =>
    "[" ++ String.intercalate ", " (xs.map (fun s => "'" ++ s ++ "'")) ++ "]"

/-- `DictWriter._dict_to_list`: the record's value at each header name,
`restval` (`None`, written empty) when absent. -/
def rowToList (fieldnames : List String) (row : Row) : List String :=
  fieldnames.map (fun k =>
    match row.find? (fun p => p.1 == some k) with
    | some p => cellWrite p.2
    | none => "")

/-- `writer.writerows(rows)`: convert and write record by record; the
first record with fields outside the header raises `ValueError`,
leaving the earlier records in the file.  Returns the raw rows actually
written and the error, if any. -/
def writeRows (fieldnames : List String) : List Row → List (List String) × Option String
  | [] => ([], none)
  | r :: rs =>
    if hasWrongFields fieldnames r then
      ([], some "ValueError: dict contains fields not in fieldnames")
    else
      let p := writeRows fieldnames rs
      (rowToList fieldnames r :: p.1, p.2)

/-- The in-memory contents of the input file as the csv reader yields
it: `fieldnames` is `None` for an empty file, and `rows` are the raw
records after the header line. -/
structure CsvData where
  fieldnames : Option (List String)
  rows : List (List String)

/-- `main()` modulo I/O: the input file is `none` when the path does
not exist, otherwise its parsed contents.  The result is a fatal error
message (a `SystemExit` for the three structural checks, the uncaught
`ValueError` for a mid-write failure) or the header and sorted records
the completed run wrote.  `DictReader` skips blank raw rows. -/
def main (file : Option CsvData) (inputPath qedArg : String) :
    Except String (List String × List Row) :=
  match file with
  | none => Except.error ("Input file not found: " ++ inputPath)
  | some data =>
    match data.fieldnames with
    | none => Except.error "Input CSV is missing a header row."
    | some fns =>
      match resolve_qed_field fns qedArg with
      | Except.error e => Except.error e
      | Except.ok qed_field =>
        let rows := (data.rows.filter (fun r => !r.isEmpty)).map (dictReaderRow fns)
        let sorted_rows := sort_rows rows qed_field
        match (writeRows fns sorted_rows).2 with
        | some e => Except.error e
        | none => Except.ok (fns, sorted_rows)

/-- What ends up in the output file: nothing when the run aborts before
the output is opened (the three structural errors), otherwise the
header together with the raw rows written before the run finished or
died mid-write. -/
def writtenOutput (file : Option CsvData) (inputPath qedArg : String) :
    Option (List String × List (List String)) :=
  match file with
  | none => none
  | some data =>
    match data.fieldnames with
    | none => none
    | some fns =>
      match resolve_qed_field fns qedArg with
      | Except.error _ => none
      | Except.ok qed_field =>
        let rows := (data.rows.filter (fun r => !r.isEmpty)).map (dictReaderRow fns)
        some (fns, (writeRows fns (sort_rows rows qed_field)).1)

/-- A row whose QED cell is missing from the record, a `None` or list
cell, or text the float grammar rejects (the spec's unparseable or
missing keys). -/
def unparseableCell (qedKey : String) (row : Row) : Bool :=
  match rowGet row qedKey with
  | .null => true
  | .extras _ => true
  | .text s => (pyFloatOfString s).isNone

/-- Missing or unparseable cells get the sentinel key `-inf`. -/
theorem unparseable_key {qedKey : String} {r : Row} (h : unparseableCell qedKey r = true) :
    rowKey qedKey r = PyFloat.negInf := by
  unfold unparseableCell at h
  cases hg : rowGet r qedKey with
  | null => simp [rowKey, parse_qed_value, hg]
  | extras xs => simp [rowKey, parse_qed_value, hg]
  | text s =>
    rw [hg] at h
    simp only [Option.isNone] at h
    cases hf : pyFloatOfString s with
    | none => simp [rowKey, parse_qed_value, hg, hf]
    | some f => rw [hf] at h; simp at h

/-- A completed write has as many raw rows as records. -/
theorem writeRows_length (fieldnames : List String) :
    ∀ rows : List Row, (writeRows fieldnames rows).2 = none →
      (writeRows fieldnames rows).1.length = rows.length
  | [], _ => rfl
  | r :: rs, h => by
    by_cases hw : hasWrongFields fieldnames r = true
    · rw [writeRows, if_pos hw] at h
      simp at h
    · rw [writeRows, if_neg hw] at h
      have h2 : (writeRows fieldnames rs).2 = none := h
      rw [writeRows, if_neg hw]
      show (rowToList fieldnames r :: (writeRows fieldnames rs).1).length = (r :: rs).length
      rw [List.length_cons, List.length_cons, writeRows_length fieldnames rs h2]

/-- Inversion of a successful run: the input file existed, its header
is the output header, the key column resolved, the output records are
the sorted reader records, and the write completed. -/
theorem main_ok_inv {file : Option CsvData} {inputPath qedArg : String}
    {hdr : List String} {out : List Row}
    (h : main file inputPath qedArg = Except.ok (hdr, out)) :
    ∃ data qf, file = some data ∧ data.fieldnames = some hdr
      ∧ resolve_qed_field hdr qedArg = Except.ok qf
      ∧ out = sort_rows ((data.rows.filter (fun r => !r.isEmpty)).map (dictReaderRow hdr)) qf
      ∧ (writeRows hdr out).2 = none := by
  cases file with
  | none => exact Except.noConfusion h
  | some data =>
    cases hf : data.fieldnames with
    | none =>
      simp only [main, hf] at h
      exact Except.noConfusion h
    | some fns =>
      cases hr : resolve_qed_field fns qedArg with
      | error e =>
        simp only [main, hf, hr] at h
        exact Except.noConfusion h
      | ok qf =>
        cases hw : (writeRows fns
            (sort_rows ((data.rows.filter (fun r => !r.isEmpty)).map (dictReaderRow fns))
              qf)).2 with
        | some e =>
          simp only [main, hf, hr, hw] at h
          exact Except.noConfusion h
        | none =>
          simp only [main, hf, hr, hw] at h
          obtain ⟨hh, ho⟩ : fns = hdr
              ∧ sort_rows ((data.rows.filter (fun r => !r.isEmpty)).map (dictReaderRow fns)) qf
                = out := by
            simpa [Prod.ext_iff] using Except.ok.inj h
          subst hh
          refine ⟨data, qf, rfl, hf, hr, ho.symm, ?_⟩
          rw [← ho]
          exact hw

/-- C1 counterexample: with cells `1.0`, `nan`, `2.0` every comparison
against the NaN key is false, so run detection sees the whole input as
one run and returns it unchanged; the 1.0 record then precedes the 2.0
record, falsifying descending order as claimed (position 0 against
position 2). -/
theorem C1_counterexample :
    sort_rows [[(some "qed", CellVal.text "1.0")], [(some "qed", CellVal.text "nan")],
        [(some "qed", CellVal.text "2.0")]] "qed"
      = [[(some "qed", CellVal.text "1.0")], [(some "qed", CellVal.text "nan")],
        [(some "qed", CellVal.text "2.0")]]
  ∧ rowKey "qed" [(some "qed", CellVal.text "nan")] = PyFloat.nan
  ∧ PyFloat.ble
      (rowKey "qed" ((sort_rows [[(some "qed", CellVal.text "1.0")],
          [(some "qed", CellVal.text "nan")], [(some "qed", CellVal.text "2.0")]] "qed").get
        ⟨2, by decide⟩))
      (rowKey "qed" ((sort_rows [[(some "qed", CellVal.text "1.0")],
          [(some "qed", CellVal.text "nan")], [(some "qed", CellVal.text "2.0")]] "qed").get
        ⟨0, by decide⟩)) = false :=
  ⟨by decide, by decide, by decide⟩

/-- C1 (amended): provided no record's key cell parses to NaN, the
output of `sort_rows` is in descending numeric-key order: at any
positions `i < j` of the output, the parsed key of the row at `i` is
greater than or equal to the parsed key of the row at `j`. -/
theorem C1_sort_descending (rows : List Row) (qedKey : String)
    (hnan : ∀ r ∈ rows, rowKey qedKey r ≠ PyFloat.nan) (i j : ℕ)
    (hij : i < j) (hj : j < (sort_rows rows qedKey).length) :
    PyFloat.ble (rowKey qedKey ((sort_rows rows qedKey).get ⟨j, hj⟩))
      (rowKey qedKey ((sort_rows rows qedKey).get ⟨i, Nat.lt_trans hij hj⟩)) = true :=
  List.Sorted.rel_get_of_lt (sorted_sort_rows rows qedKey hnan)
    (show (⟨i, Nat.lt_trans hij hj⟩ : Fin (sort_rows rows qedKey).length) < ⟨j, hj⟩ from hij)

/-- C1 witness: sorting three rows with keys 0.5, 0.9, 0.1 puts the 0.9
row before the 0.5 row, as the instantiated theorem shows. -/
theorem C1_sort_descending_witness :
    PyFloat.ble
      (rowKey "qed" ((sort_rows [[(some "qed", CellVal.text "0.5")],
          [(some "qed", CellVal.text "0.9")], [(some "qed", CellVal.text "0.1")]] "qed").get
        ⟨1, by decide⟩))
      (rowKey "qed" ((sort_rows [[(some "qed", CellVal.text "0.5")],
          [(some "qed", CellVal.text "0.9")], [(some "qed", CellVal.text "0.1")]] "qed").get
        ⟨0, by decide⟩)) = true :=
  C1_sort_descending [[(some "qed", CellVal.text "0.5")], [(some "qed", CellVal.text "0.9")],
      [(some "qed", CellVal.text "0.1")]]
    "qed" (by decide) 0 1 (by decide) (by decide)

/-- C2 counterexample, in two parts.  First, the cell text `-inf`
parses as a genuine float, yet an earlier record with the unparseable
cell `abc` stays in front of it after sorting, because both records
carry the same sentinel key.  Second, with cells `abc`, `nan`, `5.0`
the NaN key freezes the sort and the unparseable `abc` record stays in
front of the valid 5.0 record.  Either way an unparseable record is not
strictly after every record with a valid numeric key. -/
theorem C2_counterexample :
    (unparseableCell "qed" [(some "qed", CellVal.text "abc")] = true
      ∧ pyFloatOfString "-inf" = some PyFloat.negInf
      ∧ sort_rows [[(some "qed", CellVal.text "abc")],
            [(some "qed", CellVal.text "-inf")]] "qed"
          = [[(some "qed", CellVal.text "abc")], [(some "qed", CellVal.text "-inf")]])
  ∧ (pyFloatOfString "nan" = some PyFloat.nan
      ∧ sort_rows [[(some "qed", CellVal.text "abc")], [(some "qed", CellVal.text "nan")],
            [(some "qed", CellVal.text "5.0")]] "qed"
          = [[(some "qed", CellVal.text "abc")], [(some "qed", CellVal.text "nan")],
            [(some "qed", CellVal.text "5.0")]]) :=
  ⟨⟨by decide, by decide, by decide⟩, by decide, by decide⟩

/-- C2 (amended): provided no record's key cell parses to NaN, every
record whose key is the sentinel `-inf` (in particular every record
with a missing or unparseable key cell) appears after all records whose
parsed key is strictly greater than negative infinity, and the records
with missing or unparseable key cells keep their relative input order
among themselves. -/
theorem C2_unparseable_after_valid (rows : List Row) (qedKey : String)
    (hnan : ∀ r ∈ rows, rowKey qedKey r ≠ PyFloat.nan) :
    (∀ (i j : ℕ) (hij : i < j) (hj : j < (sort_rows rows qedKey).length),
      rowKey qedKey ((sort_rows rows qedKey).get ⟨i, Nat.lt_trans hij hj⟩) = PyFloat.negInf →
      rowKey qedKey ((sort_rows rows qedKey).get ⟨j, hj⟩) = PyFloat.negInf)
  ∧ (sort_rows rows qedKey).filter (unparseableCell qedKey)
      = rows.filter (unparseableCell qedKey) := by
  constructor
  · intro i j hij hj hi
    have hrel := List.Sorted.rel_get_of_lt (sorted_sort_rows rows qedKey hnan)
      (show (⟨i, Nat.lt_trans hij hj⟩ : Fin (sort_rows rows qedKey).length) < ⟨j, hj⟩ from hij)
    rw [hi] at hrel
    exact (ble_negInf_iff _).mp hrel
  · exact filter_sort_rows qedKey (unparseableCell qedKey)
      (fun r h => unparseable_key h) rows hnan

/-- C2 witness: with two unparseable rows the second stays sentinel-
keyed behind the first, and with one unparseable and one valid row the
unparseable one is the whole unparseable sublist, in input order. -/
theorem C2_unparseable_after_valid_witness :
    rowKey "qed" ((sort_rows [[(some "qed", CellVal.text "x")],
        [(some "qed", CellVal.text "y")]] "qed").get ⟨1, by decide⟩) = PyFloat.negInf
  ∧ (sort_rows [[(some "qed", CellVal.text "abc")],
        [(some "qed", CellVal.text "0.5")]] "qed").filter (unparseableCell "qed")
      = [[(some "qed", CellVal.text "abc")]] :=
  ⟨(C2_unparseable_after_valid [[(some "qed", CellVal.text "x")],
        [(some "qed", CellVal.text "y")]] "qed" (by decide)).1
      0 1 (by decide) (by decide) (by decide),
    ((C2_unparseable_after_valid [[(some "qed", CellVal.text "abc")],
        [(some "qed", CellVal.text "0.5")]] "qed" (by decide)).2).trans (by decide)⟩

/-- C3: `parse_qed_value` is total over present and absent cells: a
`None` cell and any string the float grammar rejects both yield the
`-inf` sentinel (no exception escapes), and a string the grammar
accepts yields exactly its parsed value (a number, an infinity, or
NaN). -/
theorem C3_parse_total :
    parse_qed_value CellVal.null = PyFloat.negInf
  ∧ (∀ s : String, pyFloatOfString s = none → parse_qed_value (.text s) = PyFloat.negInf)
  ∧ (∀ (s : String) (f : PyFloat), pyFloatOfString s = some f →
      parse_qed_value (.text s) = f) := by
  refine ⟨rfl, fun s h => ?_, fun s f h => ?_⟩ <;> simp [parse_qed_value, h]

/-- C3 witness: the unparseable text `abc` maps to the sentinel, and
`0.5`, `nan` and `1_5` map to their Python values. -/
theorem C3_parse_total_witness :
    parse_qed_value (.text "abc") = PyFloat.negInf
  ∧ parse_qed_value (.text "0.5") = PyFloat.val 5 (-1)
  ∧ parse_qed_value (.text "nan") = PyFloat.nan
  ∧ parse_qed_value (.text "1_5") = PyFloat.val 15 0 :=
  ⟨C3_parse_total.2.1 "abc" (by decide),
    C3_parse_total.2.2 "0.5" (PyFloat.val 5 (-1)) (by decide),
    C3_parse_total.2.2 "nan" PyFloat.nan (by decide),
    C3_parse_total.2.2 "1_5" (PyFloat.val 15 0) (by decide)⟩

/-- C4: column resolution succeeds exactly when some header name
matches the requested name case-insensitively, any returned name is
such a header name, and when no match exists it fails with the message
listing every available column. -/
theorem C4_resolve_column (fieldnames : List String) (desired : String) :
    ((∃ name, resolve_qed_field fieldnames desired = Except.ok name)
      ↔ ∃ name ∈ fieldnames, lowerStr name = lowerStr desired)
  ∧ (∀ name, resolve_qed_field fieldnames desired = Except.ok name →
      name ∈ fieldnames ∧ lowerStr name = lowerStr desired)
  ∧ ((¬ ∃ name ∈ fieldnames, lowerStr name = lowerStr desired) →
      resolve_qed_field fieldnames desired
        = Except.error ("QED column '" ++ desired ++ "' not found. Available columns: "
            ++ String.intercalate ", " fieldnames)) := by
  refine ⟨?_, ?_, ?_⟩
  · constructor
    · rintro ⟨name, hname⟩
      rw [resolve_qed_field_eq] at hname
      cases hfind : fieldnames.reverse.find?
          (fun m => lowerStr m == lowerStr desired) with
      | none => rw [hfind] at hname; exact absurd hname (by simp)
      | some m =>
        rw [hfind] at hname
        have hm : m = name := by simpa using hname
        subst hm
        exact ⟨m, List.mem_reverse.mp (List.mem_of_find?_eq_some hfind),
          by simpa using List.find?_some hfind⟩
    · rintro ⟨name, hmem, hlow⟩
      cases hfind : fieldnames.reverse.find?
          (fun m => lowerStr m == lowerStr desired) with
      | none =>
        exact absurd hlow (by simpa using
          List.find?_eq_none.mp hfind name (List.mem_reverse.mpr hmem))
      | some m => exact ⟨m, resolve_qed_field_ok fieldnames desired m hfind⟩
  · intro name hname
    rw [resolve_qed_field_eq] at hname
    cases hfind : fieldnames.reverse.find?
        (fun m => lowerStr m == lowerStr desired) with
    | none => rw [hfind] at hname; exact absurd hname (by simp)
    | some m =>
      rw [hfind] at hname
      have hm : m = name := by simpa using hname
      subst hm
      exact ⟨List.mem_reverse.mp (List.mem_of_find?_eq_some hfind),
        by simpa using List.find?_some hfind⟩
  · intro hno
    exact resolve_qed_field_error fieldnames desired (by
      intro name hmem hlow
      exact hno ⟨name, hmem, hlow⟩)

/-- C4 witness: requesting `qed` against the header `ID, QED` resolves
(case-insensitively), and requesting `price` against `id, qed, name`
fails with the message listing those columns. -/
theorem C4_resolve_column_witness :
    (∃ name, resolve_qed_field ["ID", "QED"] "qed" = Except.ok name)
  ∧ resolve_qed_field ["id", "qed", "name"] "price"
      = Except.error "QED column 'price' not found. Available columns: id, qed, name" :=
  ⟨(C4_resolve_column ["ID", "QED"] "qed").1.mpr ⟨"QED", by decide, by decide⟩,
    ((C4_resolve_column ["id", "qed", "name"] "price").2.2 (by decide)).trans (by rfl)⟩

/-- C10: among header names equal after lowercasing, resolution returns
the later one: in general the resolved name is the last header name (in
header order, i.e. the first in reverse order) whose lowercasing
matches the lowercased request, since later dict-comprehension entries
overwrite earlier ones. -/
theorem C10_last_duplicate_wins (fieldnames : List String) (desired name : String)
    (h : fieldnames.reverse.find? (fun m => lowerStr m == lowerStr desired) = some name) :
    resolve_qed_field fieldnames desired = Except.ok name :=
  resolve_qed_field_ok fieldnames desired name h

/-- C10 witness: with the duplicate headers `Qed` and `QED`, resolution
of `qed` returns the later spelling `QED`. -/
theorem C10_last_duplicate_wins_witness :
    resolve_qed_field ["Qed", "ID", "QED"] "qed" = Except.ok "QED" :=
  C10_last_duplicate_wins ["Qed", "ID", "QED"] "qed" "QED" (by decide)

/-- C5 counterexample: a record with one more field than the header is
valid input per the claim (existing file, header, resolvable column),
but `DictReader` files the extra field under the `None` restkey and
`DictWriter` (`extrasaction='raise'`) raises `ValueError` on that
record mid-write.  Here the jagged record sorts first, so the run dies
with zero records written against two records of input. -/
theorem C5_counterexample :
    resolve_qed_field ["qed"] "qed" = Except.ok "qed"
  ∧ main (some (CsvData.mk (some ["qed"]) [["0.5"], ["0.7", "extra"]])) "in.csv" "qed"
      = Except.error "ValueError: dict contains fields not in fieldnames"
  ∧ writtenOutput (some (CsvData.mk (some ["qed"]) [["0.5"], ["0.7", "extra"]])) "in.csv" "qed"
      = some (["qed"], []) :=
  ⟨by rfl, by rfl, by rfl⟩

/-- C5 (amended): on every run that completes successfully —
equivalently, on every valid input none of whose records carries fields
beyond the header — the number of records written to the output equals
the number of the reader's input records (blank raw rows are skipped by
the reader and are not records). -/
theorem C5_row_count (file : Option CsvData) (inputPath qedArg : String)
    (hdr : List String) (out : List Row)
    (h : main file inputPath qedArg = Except.ok (hdr, out)) :
    ∃ data written, file = some data
      ∧ writtenOutput file inputPath qedArg = some (hdr, written)
      ∧ written.length = (data.rows.filter (fun r => !r.isEmpty)).length := by
  obtain ⟨data, qf, hfile, hf, hr, hout, hw⟩ := main_ok_inv h
  subst hfile
  refine ⟨data, (writeRows hdr out).1, rfl, ?_, ?_⟩
  · simp only [writtenOutput, hf, hr]
    rw [← hout]
  · rw [writeRows_length hdr out hw, hout]
    calc (sort_rows ((data.rows.filter (fun r => !r.isEmpty)).map (dictReaderRow hdr))
          qf).length
        = ((data.rows.filter (fun r => !r.isEmpty)).map (dictReaderRow hdr)).length :=
          (pySorted_perm _ _).length_eq
      _ = (data.rows.filter (fun r => !r.isEmpty)).length := List.length_map _ _

/-- C5 witness: a two-record input with no extra fields writes exactly
two records. -/
theorem C5_row_count_witness :
    ∃ data written, (some (CsvData.mk (some ["qed"]) [["0.2"], ["0.8"]])
        : Option CsvData) = some data
      ∧ writtenOutput (some (CsvData.mk (some ["qed"]) [["0.2"], ["0.8"]])) "in.csv" "qed"
          = some (["qed"], written)
      ∧ written.length = (data.rows.filter (fun r => !r.isEmpty)).length :=
  C5_row_count (some (CsvData.mk (some ["qed"]) [["0.2"], ["0.8"]])) "in.csv" "qed"
    ["qed"] [[(some "qed", CellVal.text "0.8")], [(some "qed", CellVal.text "0.2")]] (by rfl)

/-- C6: whenever the run succeeds, the header written to the output is
exactly the header read from the input, names and order alike. -/
theorem C6_header_identical (file : Option CsvData) (inputPath qedArg : String)
    (hdr : List String) (out : List Row)
    (h : main file inputPath qedArg = Except.ok (hdr, out)) :
    ∃ data, file = some data ∧ data.fieldnames = some hdr := by
  obtain ⟨data, _, hfile, hhdr, _, _, _⟩ := main_ok_inv h
  exact ⟨data, hfile, hhdr⟩

/-- C6 witness: the header `id, qed` of a successful run reappears as
the output header. -/
theorem C6_header_identical_witness :
    ∃ data, (some (CsvData.mk (some ["id", "qed"]) [["a", "0.2"]]) : Option CsvData)
        = some data
      ∧ data.fieldnames = some ["id", "qed"] :=
  C6_header_identical (some (CsvData.mk (some ["id", "qed"]) [["a", "0.2"]])) "in.csv" "qed"
    ["id", "qed"] [[(some "id", CellVal.text "a"), (some "qed", CellVal.text "0.2")]] (by rfl)

/-- C7: each structural failure (missing input file, missing header
row, unresolvable key column) makes the run abort with an error, and
nothing is written to the output file. -/
theorem C7_structural_errors_abort (file : Option CsvData) (inputPath qedArg : String) :
    (file = none →
      main file inputPath qedArg = Except.error ("Input file not found: " ++ inputPath)
      ∧ writtenOutput file inputPath qedArg = none)
  ∧ (∀ data, file = some data → data.fieldnames = none →
      main file inputPath qedArg = Except.error "Input CSV is missing a header row."
      ∧ writtenOutput file inputPath qedArg = none)
  ∧ (∀ data fns, file = some data → data.fieldnames = some fns →
      (∀ name ∈ fns, lowerStr name ≠ lowerStr qedArg) →
      main file inputPath qedArg
        = Except.error ("QED column '" ++ qedArg ++ "' not found. Available columns: "
            ++ String.intercalate ", " fns)
      ∧ writtenOutput file inputPath qedArg = none) := by
  refine ⟨fun hnone => ?_, fun data hsome hnohdr => ?_, fun data fns hsome hhdr hnocol => ?_⟩
  · subst hnone
    exact ⟨rfl, rfl⟩
  · subst hsome
    constructor
    · simp only [main, hnohdr]
    · simp only [writtenOutput, hnohdr]
  · subst hsome
    constructor
    · simp only [main, hhdr, resolve_qed_field_error fns qedArg hnocol]
    · simp only [writtenOutput, hhdr, resolve_qed_field_error fns qedArg hnocol]

/-- C7 witness: a missing file, an empty file and a header without the
requested column each abort their run with nothing written. -/
theorem C7_structural_errors_abort_witness :
    (main none "data.csv" "qed" = Except.error "Input file not found: data.csv"
      ∧ writtenOutput none "data.csv" "qed" = none)
  ∧ (main (some (CsvData.mk none [])) "data.csv" "qed"
        = Except.error "Input CSV is missing a header row."
      ∧ writtenOutput (some (CsvData.mk none [])) "data.csv" "qed" = none)
  ∧ (main (some (CsvData.mk (some ["id", "name"]) [])) "data.csv" "qed"
        = Except.error "QED column 'qed' not found. Available columns: id, name"
      ∧ writtenOutput (some (CsvData.mk (some ["id", "name"]) [])) "data.csv" "qed" = none) :=
  ⟨(C7_structural_errors_abort none "data.csv" "qed").1 rfl,
    (C7_structural_errors_abort (some (CsvData.mk none [])) "data.csv" "qed").2.1
      (CsvData.mk none []) rfl rfl,
    ((C7_structural_errors_abort (some (CsvData.mk (some ["id", "name"]) []))
        "data.csv" "qed").2.2 (CsvData.mk (some ["id", "name"]) []) ["id", "name"]
      rfl rfl (by decide)).imp (fun hm => hm.trans (by rfl)) id⟩

/-- C8: sorting is idempotent on the row ordering: re-sorting the
output of `sort_rows` with the same key column changes nothing.  This
holds for every input, NaN keys included: the sort's output never has
an adjacent descending pair, so the second pass recognises it as one
run and returns it unchanged. -/
theorem C8_sort_idempotent (rows : List Row) (qedKey : String) :
    sort_rows (sort_rows rows qedKey) qedKey = sort_rows rows qedKey :=
  pySorted_fixpoint (rowLt qedKey) (fun hab => lt_asymm hab) rows

/-- C9: the output of `sort_rows` is a permutation of its input: every
input record appears exactly once, none added or dropped; the input
list itself is untouched, the result being a newly built ordering. -/
theorem C9_sort_permutation (rows : List Row) (qedKey : String) :
    List.Perm (sort_rows rows qedKey) rows :=
  pySorted_perm (rowLt qedKey) rows

end SortByQed
